import Mathlib

/-!
Shallow embedding of the renaming (alpha-conversion) pass in `src/renamer.rs`
of the haskell-compiler repository, together with proofs of the specified
properties.  Pure constructs are translated to Lean functions; the mutable
`Renamer` state (scope table, unique-id counter, error accumulator) is made
explicit by state passing: every operation takes a `Renamer` and returns the
result paired with the updated `Renamer`.
-/

namespace HsRenamer

/-- Interned string handle produced by the external interner; equality and
hashing coincide with string equality, so we model it as `String`. -/
abbrev InternedStr := String

/-- Opaque source-location payload carried by tree nodes (passed through
unchanged by the renamer), modelled as an opaque token. -/
abbrev Location := Nat

/-- Opaque type-annotation payload carried by tree nodes (passed through
unchanged by the renamer). -/
abbrev TypeAnn := Nat

/-- Opaque literal payload of `Literal` expressions. -/
abbrev LiteralData := Nat

/-- Opaque type-declaration payload of a `Binding`. -/
abbrev TypeDecl := Nat

/-- `Name` from `src/renamer.rs`: an interned symbol together with a
disambiguating uid; `uid = 0` is the global sentinel. -/
structure Name where
  name : InternedStr
  uid : Nat
deriving DecidableEq, Repr

/-- Modelled from the spec: `Located` wrapper pairing a node with its source
location (used for case-alternative patterns and do-bind patterns); the type
itself lives in `module.rs`, outside `src/`. -/
structure Located (A : Type) where
  location : Location
  node : A
deriving DecidableEq, Repr

/-- `Errors` from `src/renamer.rs`: an append-only list of diagnostics. -/
structure Errors where
  errors : List String
deriving DecidableEq, Repr

/-- `Errors::new`. -/
def Errors.new : Errors := ⟨[]⟩

/-- `Errors::insert`: push one diagnostic at the end. -/
def Errors.insert (es : Errors) (e : String) : Errors := ⟨es.errors ++ [e]⟩

/-- `Errors::has_errors`. -/
def Errors.has_errors (es : Errors) : Bool := es.errors.length != 0

/-- One scope frame of the scope table: bindings of the frame, most recent
first. -/
abbrev Frame := List (InternedStr × Name)

/-- First binding of `k` in one frame (most recent insertion wins). -/
def lookupFrame (k : InternedStr) : Frame → Option Name
  | [] => none
  | (k', v) :: f => if k' = k then some v else lookupFrame k f

/-- Overwrite the uid of the most recent binding of `k` in one frame with the
global sentinel 0. -/
def setUidZeroFrame (k : InternedStr) : Frame → Frame
  | [] => []
  | (k', v) :: f =>
    if k' = k then (k', ⟨v.name, 0⟩) :: f else (k', v) :: setUidZeroFrame k f

/-- Modelled from the spec: the Scope Table collaborator (`ScopedMap` from
`scoped_map.rs`, which is outside `src/`), following the operational contract
of spec §4.1: a stack of frames, nonempty by construction (`cur` is the
innermost frame, `rest` the enclosing ones). -/
structure ScopedMap where
  cur : Frame
  rest : List Frame
deriving DecidableEq, Repr

/-- Modelled from the spec: `ScopedMap::new`, one empty base frame. -/
def ScopedMap.new : ScopedMap := ⟨[], []⟩

/-- Modelled from the spec: `enter_scope` pushes a fresh empty frame. -/
def ScopedMap.enter_scope (m : ScopedMap) : ScopedMap := ⟨[], m.cur :: m.rest⟩

/-- Modelled from the spec: `exit_scope` pops the innermost frame (strictly
paired with `enter_scope`; popping the base frame never happens on the paths
the renamer takes and is given the harmless total behavior). -/
def ScopedMap.exit_scope (m : ScopedMap) : ScopedMap :=
  match m.rest with
  | [] => ⟨[], []⟩
  | c :: cs => ⟨c, cs⟩

/-- Modelled from the spec: `insert` binds in the current innermost frame,
shadowing without destroying outer bindings. -/
def ScopedMap.insert (m : ScopedMap) (k : InternedStr) (v : Name) : ScopedMap :=
  ⟨(k, v) :: m.cur, m.rest⟩

/-- First binding of `k` in a stack of frames, innermost first. -/
def findInFrames (k : InternedStr) : List Frame → Option Name
  | [] => none
  | f :: fs =>
    match lookupFrame k f with
    | some v => some v
    | none => findInFrames k fs

/-- Modelled from the spec: `find` searches innermost to outermost. -/
def ScopedMap.find (m : ScopedMap) (k : InternedStr) : Option Name :=
  findInFrames k (m.cur :: m.rest)

/-- Modelled from the spec: `in_current_scope` tests the innermost frame only. -/
def ScopedMap.in_current_scope (m : ScopedMap) (k : InternedStr) : Bool :=
  (lookupFrame k m.cur).isSome

/-- Zero the uid of the nearest binding of `k` in a frame stack. -/
def zeroInFrames (k : InternedStr) : List Frame → List Frame
  | [] => []
  | f :: fs =>
    if (lookupFrame k f).isSome then setUidZeroFrame k f :: fs
    else f :: zeroInFrames k fs

/-- The one use the renamer makes of `find_mut`: overwrite the uid of the
nearest binding of `k` with the global sentinel 0
(`self.uniques.find_mut(&name).unwrap().uid = 0`). -/
def ScopedMap.set_uid_zero (m : ScopedMap) (k : InternedStr) : ScopedMap :=
  if (lookupFrame k m.cur).isSome then ⟨setUidZeroFrame k m.cur, m.rest⟩
  else ⟨m.cur, zeroInFrames k m.rest⟩

mutual
/-- Modelled from the spec: patterns (the `Pattern<T>` type of `module.rs`,
outside `src/`), generic over the identifier representation. -/
inductive Pattern (T : Type) : Type where
  | NumberPattern (i : Int)
  | ConstructorPattern (name : T) (subpatterns : PatternList T)
  | IdentifierPattern (i : T)
  | WildCardPattern
inductive PatternList (T : Type) : Type where
  | nil
  | cons (p : Pattern T) (ps : PatternList T)
end

mutual
/-- Modelled from the spec: the expression tree of `module.rs` (outside
`src/`), generic over the identifier representation; every expression node
carries an opaque type annotation and source location.  The sibling types
below (bindings, case alternatives, do statements) are modelled from the
spec as well. -/
inductive TypedExpr (T : Type) : Type where
  | mk (typ : TypeAnn) (location : Location) (expr : Expr T)
inductive Expr (T : Type) : Type where
  | Literal (l : LiteralData)
  | Identifier (i : T)
  | Apply (func : TypedExpr T) (arg : TypedExpr T)
  | Lambda (arg : Pattern T) (body : TypedExpr T)
  | Let (bindings : BindingList T) (body : TypedExpr T)
  | Case (scrutinee : TypedExpr T) (alts : AltList T)
  | Do (stmts : DoList T) (tail : TypedExpr T)
inductive Binding (T : Type) : Type where
  | mk (name : T) (arguments : PatternList T) (expression : TypedExpr T)
       (typeDecl : TypeDecl) (arity : Nat)
inductive BindingList (T : Type) : Type where
  | nil
  | cons (b : Binding T) (bs : BindingList T)
inductive Alternative (T : Type) : Type where
  | mk (pat : Located (Pattern T)) (expression : TypedExpr T)
inductive AltList (T : Type) : Type where
  | nil
  | cons (a : Alternative T) (alts : AltList T)
inductive DoBinding (T : Type) : Type where
  | DoExpr (e : TypedExpr T)
  | DoLet (bs : BindingList T)
  | DoBind (pat : Located (Pattern T)) (e : TypedExpr T)
inductive DoList (T : Type) : Type where
  | nil
  | cons (s : DoBinding T) (stmts : DoList T)
end

/-- Name of one binding clause. -/
def Binding.name {T : Type} : Binding T → T
  | .mk n _ _ _ _ => n

/-- Argument patterns of one binding clause. -/
def Binding.arguments {T : Type} : Binding T → PatternList T
  | .mk _ a _ _ _ => a

/-- Right-hand side of one binding clause. -/
def Binding.expression {T : Type} : Binding T → TypedExpr T
  | .mk _ _ e _ _ => e

/-- Opaque arity payload of one binding clause. -/
def Binding.arity {T : Type} : Binding T → Nat
  | .mk _ _ _ _ a => a

/-- Plain list of the clauses of a binding list. -/
def BindingList.toList {T : Type} : BindingList T → List (Binding T)
  | .nil => []
  | .cons b bs => b :: bs.toList

/-- Names of the clauses of a binding list, in order. -/
def BindingList.names {T : Type} : BindingList T → List T
  | .nil => []
  | .cons b bs => b.name :: bs.names

/-- Type annotation of an expression node. -/
def TypedExpr.typ {T : Type} : TypedExpr T → TypeAnn
  | .mk t _ _ => t

/-- Source location of an expression node. -/
def TypedExpr.location {T : Type} : TypedExpr T → Location
  | .mk _ l _ => l

/-- Modelled from the spec: data-definition constructors (from `module.rs`,
outside `src/`). -/
structure Constructor (T : Type) where
  name : T
  typ : TypeAnn
  tag : Nat
  arity : Nat

/-- Modelled from the spec: data definitions (from `module.rs`). -/
structure DataDefinition (T : Type) where
  constructors : List (Constructor T)
  typ : TypeAnn
  parameters : Nat

/-- Modelled from the spec: class instances (from `module.rs`); constraints,
type and classname are opaque payload. -/
structure Instance (T : Type) where
  bindings : BindingList T
  constraints : Nat
  typ : TypeAnn
  classname : InternedStr

/-- Modelled from the spec: modules (from `module.rs`); imports, classes and
type declarations are opaque payload, untouched by the renamer. -/
structure Module (T : Type) where
  name : T
  imports : Nat
  classes : Nat
  dataDefinitions : List (DataDefinition T)
  typeDeclarations : Nat
  bindings : BindingList T
  instances : List (Instance T)

/-- Modelled from the spec: the Binding Grouper collaborator
(`binding_groups`, outside `src/`): partition an ordered binding list into
maximal runs of consecutive same-named clauses, preserving order. -/
def binding_groups : List (Binding InternedStr) → List (List (Binding InternedStr))
  | [] => []
  | b :: bs =>
    match binding_groups bs with
    | [] => [[b]]
    | [] :: gs => [b] :: [] :: gs
    | (b2 :: g) :: gs =>
      if b.name = b2.name then (b :: b2 :: g) :: gs
      else [b] :: (b2 :: g) :: gs

/-- Names of the first clauses of the groups, in order. -/
def groupHeadNames (gs : List (List (Binding InternedStr))) : List InternedStr :=
  gs.filterMap (fun g => g.head?.map Binding.name)

/-- `Renamer` from `src/renamer.rs`: the scope table, the unique-id counter
and the error accumulator. -/
structure Renamer where
  uniques : ScopedMap
  unique_id : Nat
  errors : Errors
deriving DecidableEq, Repr

/-- `Renamer::new`: empty table, counter 1, no errors. -/
def Renamer.new : Renamer := ⟨ScopedMap.new, 1, Errors.new⟩

/-- `Renamer::make_unique`: if the symbol is already bound in the current
innermost frame, record a duplicate-definition diagnostic and reuse the
registered `Name` (the `unwrap` on `find` cannot fail there, see
`make_unique_find_isSome`; the `getD` default is never used); otherwise
pre-increment the counter and insert a freshly minted `Name`. -/
def Renamer.make_unique (r : Renamer) (name : InternedStr) : Name × Renamer :=
  if r.uniques.in_current_scope name then
    ((r.uniques.find name).getD ⟨name, 0⟩,
     { r with errors := r.errors.insert (name ++ " is defined multiple times") })
  else
    let u : Name := ⟨name, r.unique_id + 1⟩
    (u, { r with uniques := r.uniques.insert name u, unique_id := r.unique_id + 1 })

/-- `Renamer::get_name`: resolve an identifier occurrence through the scope
table; unresolved symbols become global references `Name{s, uid = 0}`. -/
def Renamer.get_name (r : Renamer) (s : InternedStr) : Name :=
  match r.uniques.find s with
  | some n => ⟨s, n.uid⟩
  | none => ⟨s, 0⟩

/-- Registration of one binding group (the body of the first loop of
`rename_bindings`): `make_unique` on the group's first clause's name, then,
when global, demote the registered uid to the sentinel 0. -/
def register_one (r : Renamer) (g : List (Binding InternedStr)) (is_global : Bool) : Renamer :=
  match g with
  | [] => r
  | b :: _ =>
    let r2 := (r.make_unique b.name).2
    if is_global then { r2 with uniques := r2.uniques.set_uid_zero b.name } else r2

/-- The first loop of `rename_bindings`: register every binding group. -/
def register_binding_groups (r : Renamer) (gs : List (List (Binding InternedStr)))
    (is_global : Bool) : Renamer :=
  match gs with
  | [] => r
  | g :: rest => register_binding_groups (register_one r g is_global) rest is_global

mutual
/-- `Renamer::rename_pattern`: numbers and wildcards unchanged, constructor
heads become `Name{s, uid = 0}` and are never scope-registered, identifier
patterns register a fresh local binding via `make_unique`. -/
def Renamer.rename_pattern (r : Renamer) : Pattern InternedStr → Pattern Name × Renamer
  | .NumberPattern i => (.NumberPattern i, r)
  | .ConstructorPattern s ps =>
    let pr := r.renamePatterns ps
    (.ConstructorPattern ⟨s, 0⟩ pr.1, pr.2)
  | .IdentifierPattern s =>
    let nr := r.make_unique s
    (.IdentifierPattern nr.1, nr.2)
  | .WildCardPattern => (.WildCardPattern, r)
/-- Left-to-right renaming of a pattern list (the iterator in
`ConstructorPattern` and in `rename_arguments`). -/
def Renamer.renamePatterns (r : Renamer) : PatternList InternedStr → PatternList Name × Renamer
  | .nil => (.nil, r)
  | .cons p ps =>
    let pr := r.rename_pattern p
    let psr := pr.2.renamePatterns ps
    (.cons pr.1 psr.1, psr.2)
end

/-- `Renamer::rename_arguments`. -/
def Renamer.rename_arguments (r : Renamer) (args : PatternList InternedStr) :
    PatternList Name × Renamer :=
  r.renamePatterns args

mutual
/-- `Renamer::rename`: destructure the node, rewrite the inner expression,
rebuild the node with the original type annotation and location
(`TypedExpr::with_location` followed by `t.typ = typ` in the source). -/
def Renamer.rename (r : Renamer) : TypedExpr InternedStr → TypedExpr Name × Renamer
  | .mk typ location e =>
    let er := r.renameE e
    (.mk typ location er.1, er.2)

/-- Body of the `match expr` in `Renamer::rename`, one case per variant, with
the source's evaluation order (for `Case`, the alternatives are rewritten
before the scrutinee; for `Do`, the statements before the trailing
expression; for `DoBind`, the pattern before the bound expression). -/
def Renamer.renameE (r : Renamer) : Expr InternedStr → Expr Name × Renamer
  | .Literal l => (.Literal l, r)
  | .Identifier i => (.Identifier (r.get_name i), r)
  | .Apply f a =>
    let fr := r.rename f
    let ar := fr.2.rename a
    (.Apply fr.1 ar.1, ar.2)
  | .Lambda arg body =>
    let r1 := { r with uniques := r.uniques.enter_scope }
    let pr := r1.rename_pattern arg
    let br := pr.2.rename body
    (.Lambda pr.1 br.1, { br.2 with uniques := br.2.uniques.exit_scope })
  | .Let bs body =>
    let r1 := { r with uniques := r.uniques.enter_scope }
    let r2 := register_binding_groups r1 (binding_groups bs.toList) false
    let br := r2.renameClauseList bs
    let er := br.2.rename body
    (.Let br.1 er.1, { er.2 with uniques := er.2.uniques.exit_scope })
  | .Case scrut alts =>
    let ar := r.renameAlts alts
    let sr := ar.2.rename scrut
    (.Case sr.1 ar.1, sr.2)
  | .Do stmts tail =>
    let dr := r.renameDoBindings stmts
    let tr := dr.2.rename tail
    (.Do dr.1 tr.1, tr.2)

/-- The per-clause closure of `rename_bindings` (its second loop body): look
the clause's registered `Name` up (the `expect` on the lookup is modelled by
a `getD` whose default, uid 1, is provably never looked at — uid 1 is minted
by no path), open a child scope, rename the argument patterns then the body,
close the scope. -/
def Renamer.rename_clause (r : Renamer) : Binding InternedStr → Binding Name × Renamer
  | .mk name arguments expression typeDecl arity =>
    let n := (r.uniques.find name).getD ⟨name, 1⟩
    let r1 := { r with uniques := r.uniques.enter_scope }
    let ar := r1.rename_arguments arguments
    let er := ar.2.rename expression
    (.mk n ar.1 er.1 typeDecl arity,
     { er.2 with uniques := er.2.uniques.exit_scope })

/-- The second loop of `rename_bindings`: rewrite every clause in original
order, threading the renamer state. -/
def Renamer.renameClauseList (r : Renamer) : BindingList InternedStr → BindingList Name × Renamer
  | .nil => (.nil, r)
  | .cons b bs =>
    let br := r.rename_clause b
    let bsr := br.2.renameClauseList bs
    (.cons br.1 bsr.1, bsr.2)

/-- The per-alternative closure of the `Case` arm of `Renamer::rename`: each
alternative gets its own scope for its pattern and expression. -/
def Renamer.renameAlts (r : Renamer) : AltList InternedStr → AltList Name × Renamer
  | .nil => (.nil, r)
  | .cons (.mk (Located.mk loc pat) e) rest =>
    let r1 := { r with uniques := r.uniques.enter_scope }
    let pr := r1.rename_pattern pat
    let er := pr.2.rename e
    let r2 := { er.2 with uniques := er.2.uniques.exit_scope }
    let rr := r2.renameAlts rest
    (.cons (.mk (Located.mk loc pr.1) er.1) rr.1, rr.2)

/-- The statement loop of the `Do` arm of `Renamer::rename`, in the ambient
scope: `DoExpr` rewrites its expression; `DoLet` rewrites a non-global
binding list in place (no dedicated scope frame, as in the source);
`DoBind` rewrites the pattern first and the bound expression second
(the source's evaluation order at lines 120-124). -/
def Renamer.renameDoBindings (r : Renamer) : DoList InternedStr → DoList Name × Renamer
  | .nil => (.nil, r)
  | .cons (.DoExpr e) rest =>
    let er := r.rename e
    let rr := er.2.renameDoBindings rest
    (.cons (.DoExpr er.1) rr.1, rr.2)
  | .cons (.DoLet bs) rest =>
    let r2 := register_binding_groups r (binding_groups bs.toList) false
    let br := r2.renameClauseList bs
    let rr := br.2.renameDoBindings rest
    (.cons (.DoLet br.1) rr.1, rr.2)
  | .cons (.DoBind (Located.mk loc pat) e) rest =>
    let pr := r.rename_pattern pat
    let er := pr.2.rename e
    let rr := er.2.renameDoBindings rest
    (.cons (.DoBind (Located.mk loc pr.1) er.1) rr.1, rr.2)
end

/-- `Renamer::rename_bindings`: register all binding groups in the current
scope, then rewrite every clause in original order.  (In the mutually
recursive `Let` and `DoLet` arms of `renameE` this two-phase body appears
inlined with `is_global = false`; this wrapper is definitionally equal to
those occurrences.) -/
def Renamer.rename_bindings (r : Renamer) (bindings : BindingList InternedStr)
    (is_global : Bool) : BindingList Name × Renamer :=
  let r2 := register_binding_groups r (binding_groups bindings.toList) is_global
  r2.renameClauseList bindings

/-- The data-definition rewrite of `rename_module_`: every constructor name
becomes `Name{sym, uid = 0}`, nothing is scope-registered. -/
def renameDataDefs (ds : List (DataDefinition InternedStr)) : List (DataDefinition Name) :=
  ds.map fun d =>
    ⟨d.constructors.map (fun c => ⟨⟨c.name, 0⟩, c.typ, c.tag, c.arity⟩),
     d.typ, d.parameters⟩

/-- The instance loop of `rename_module_`: each instance's method bindings
are renamed as a global binding list, threading the renamer state. -/
def Renamer.renameInstances (r : Renamer) :
    List (Instance InternedStr) → List (Instance Name) × Renamer
  | [] => ([], r)
  | i :: rest =>
    let br := r.rename_bindings i.bindings true
    let rr := br.2.renameInstances rest
    (⟨br.1, i.constraints, i.typ, i.classname⟩ :: rr.1, rr.2)

/-- `rename_module_`: constructors get the global sentinel, instances and
top-level bindings are renamed as global binding lists, and the module's own
name is minted last (and, asymmetrically, not demoted to uid 0). -/
def rename_module_ (r : Renamer) (m : Module InternedStr) : Module Name × Renamer :=
  let dd2 := renameDataDefs m.dataDefinitions
  let ir := r.renameInstances m.instances
  let br := ir.2.rename_bindings m.bindings true
  let nr := br.2.make_unique m.name
  (⟨nr.1, m.imports, m.classes, dd2, m.typeDeclarations, br.1, ir.1⟩, nr.2)

/-- `rename_module`: fresh renamer, one module. -/
def rename_module (m : Module InternedStr) : Module Name :=
  (rename_module_ Renamer.new m).1

/-- `rename_expr`: fresh renamer, one standalone expression. -/
def rename_expr (e : TypedExpr InternedStr) : TypedExpr Name :=
  (Renamer.new.rename e).1

/-- The module loop of `rename_modules`: one renamer threaded across every
module in order. -/
def rename_modules_go (r : Renamer) :
    List (Module InternedStr) → List (Module Name) × Renamer
  | [] => ([], r)
  | m :: ms =>
    let mr := rename_module_ r m
    let msr := rename_modules_go mr.2 ms
    (mr.1 :: msr.1, msr.2)

/-- `rename_modules`: after all modules are processed, a non-empty error
accumulator aborts the pass (`report_errors` followed by `fail!()` in the
source, embedded as a structured `Except.error` carrying the accumulated
diagnostics in insertion order); otherwise the renamed modules are returned. -/
def rename_modules (modules : List (Module InternedStr)) :
    Except (List String) (List (Module Name)) :=
  let msr := rename_modules_go Renamer.new modules
  if msr.2.errors.has_errors then Except.error msr.2.errors.errors
  else Except.ok msr.1

mutual
/-- Preorder list of the (type annotation, source location) metadata of every
expression node of a tree; used to state that renaming carries this metadata
through unchanged. -/
def TypedExpr.metas {T : Type} : TypedExpr T → List (TypeAnn × Location)
  | .mk t l e => (t, l) :: e.metas
def Expr.metas {T : Type} : Expr T → List (TypeAnn × Location)
  | .Literal _ => []
  | .Identifier _ => []
  | .Apply f a => f.metas ++ a.metas
  | .Lambda _ b => b.metas
  | .Let bs b => bs.metas ++ b.metas
  | .Case s alts => s.metas ++ alts.metas
  | .Do stmts tail => stmts.metas ++ tail.metas
def Binding.metas {T : Type} : Binding T → List (TypeAnn × Location)
  | .mk _ _ e _ _ => e.metas
def BindingList.metas {T : Type} : BindingList T → List (TypeAnn × Location)
  | .nil => []
  | .cons b bs => b.metas ++ bs.metas
def Alternative.metas {T : Type} : Alternative T → List (TypeAnn × Location)
  | .mk _ e => e.metas
def AltList.metas {T : Type} : AltList T → List (TypeAnn × Location)
  | .nil => []
  | .cons a alts => a.metas ++ alts.metas
def DoBinding.metas {T : Type} : DoBinding T → List (TypeAnn × Location)
  | .DoExpr e => e.metas
  | .DoLet bs => bs.metas
  | .DoBind _ e => e.metas
def DoList.metas {T : Type} : DoList T → List (TypeAnn × Location)
  | .nil => []
  | .cons s stmts => s.metas ++ stmts.metas
end

mutual
/-- Every `ConstructorPattern` head of a renamed pattern carries the global
sentinel uid 0. -/
def Pattern.ctorsZero : Pattern Name → Bool
  | .NumberPattern _ => true
  | .ConstructorPattern n ps => n.uid == 0 && ps.ctorsZero
  | .IdentifierPattern _ => true
  | .WildCardPattern => true
def PatternList.ctorsZero : PatternList Name → Bool
  | .nil => true
  | .cons p ps => p.ctorsZero && ps.ctorsZero
end

mutual
/-- Every `ConstructorPattern` head occurring anywhere in a renamed
expression tree (lambda arguments, let-binding argument lists, case
alternatives, do statements) carries the global sentinel uid 0. -/
def TypedExpr.ctorsZero : TypedExpr Name → Bool
  | .mk _ _ e => e.ctorsZero
def Expr.ctorsZero : Expr Name → Bool
  | .Literal _ => true
  | .Identifier _ => true
  | .Apply f a => f.ctorsZero && a.ctorsZero
  | .Lambda p b => p.ctorsZero && b.ctorsZero
  | .Let bs b => bs.ctorsZero && b.ctorsZero
  | .Case s alts => s.ctorsZero && alts.ctorsZero
  | .Do stmts tail => stmts.ctorsZero && tail.ctorsZero
def Binding.ctorsZero : Binding Name → Bool
  | .mk _ args e _ _ => args.ctorsZero && e.ctorsZero
def BindingList.ctorsZero : BindingList Name → Bool
  | .nil => true
  | .cons b bs => b.ctorsZero && bs.ctorsZero
def Alternative.ctorsZero : Alternative Name → Bool
  | .mk p e => (p.node).ctorsZero && e.ctorsZero
def AltList.ctorsZero : AltList Name → Bool
  | .nil => true
  | .cons a alts => a.ctorsZero && alts.ctorsZero
def DoBinding.ctorsZero : DoBinding Name → Bool
  | .DoExpr e => e.ctorsZero
  | .DoLet bs => bs.ctorsZero
  | .DoBind p e => (p.node).ctorsZero && e.ctorsZero
def DoList.ctorsZero : DoList Name → Bool
  | .nil => true
  | .cons s stmts => s.ctorsZero && stmts.ctorsZero
end

/-- All clause names of a renamed binding list carry the global sentinel. -/
def namesAllZero (bl : BindingList Name) : Bool :=
  bl.names.all (fun nm => nm.uid == 0)

/-- All data-definition constructor names carry the global sentinel. -/
def dataCtorsZero (ds : List (DataDefinition Name)) : Bool :=
  ds.all (fun d => d.constructors.all (fun c => c.name.uid == 0))

/-- All instance-method binding names carry the global sentinel. -/
def instancesNamesZero (insts : List (Instance Name)) : Bool :=
  insts.all (fun i => namesAllZero i.bindings)

/-- All `ConstructorPattern` heads inside instance-method bindings carry the
global sentinel. -/
def instancesCtorsZero (insts : List (Instance Name)) : Bool :=
  insts.all (fun i => i.bindings.ctorsZero)

/-- State-evolution invariant of one renamer operation: the enclosing scope
frames are left untouched, the unique-id counter never decreases, and the
error list only grows at the end. -/
def StepOk (r r' : Renamer) : Prop :=
  r'.uniques.rest = r.uniques.rest ∧ r.unique_id ≤ r'.unique_id ∧
  ∃ es, r'.errors.errors = r.errors.errors ++ es

/-- Binding list `x ; y ; x` (three single-clause groups, the third a
duplicate of the first within the same frame); the three clauses are distinct
binding occurrences, distinguished by their arity payloads 7, 8, 9. -/
def demo1Bs : BindingList InternedStr :=
  .cons (.mk "x" .nil (.mk 0 0 (.Literal 10)) 0 7)
    (.cons (.mk "y" .nil (.mk 0 0 (.Literal 20)) 0 8)
      (.cons (.mk "x" .nil (.mk 0 0 (.Literal 30)) 0 9) .nil))

/-- The do block `do { x <- x; 9 }`: one `DoBind` whose pattern binds `x` and
whose bound expression references `x`, with `x` unbound outside the block. -/
def demo5Do : TypedExpr InternedStr :=
  .mk 0 5 (.Do (.cons (.DoBind (Located.mk 6 (.IdentifierPattern "x"))
      (.mk 1 7 (.Identifier "x"))) .nil) (.mk 2 8 (.Literal 9)))

/-- Module whose top level is `main ; test ; main`, producing one
duplicate-definition diagnostic for `main` (mirrors the source's own
`duplicate_binding` test). -/
def demo6Mod : Module InternedStr :=
  ⟨"M", 0, 0, [], 0,
   .cons (.mk "main" .nil (.mk 0 0 (.Literal 1)) 0 0)
     (.cons (.mk "test" .nil (.mk 0 0 (.Literal 2)) 0 0)
       (.cons (.mk "main" .nil (.mk 0 0 (.Literal 3)) 0 0) .nil)),
   []⟩

/-- Two clauses of one multi-clause definition `f`. -/
def demo7b1 : Binding InternedStr := .mk "f" .nil (.mk 0 0 (.Literal 1)) 0 1
/-- Second clause of the multi-clause definition `f`. -/
def demo7b2 : Binding InternedStr := .mk "f" .nil (.mk 0 0 (.Literal 2)) 0 2

/-- A one-clause binding list for the clause-lookup witness. -/
def demo9Bs : BindingList InternedStr :=
  .cons (.mk "x" .nil (.mk 0 0 (.Literal 0)) 0 0) .nil

/-! Basic facts about frames and the scope table. -/

theorem lookupFrame_cons_self (k : InternedStr) (v : Name) (f : Frame) :
    lookupFrame k ((k, v) :: f) = some v := by
  simp [lookupFrame]

theorem lookupFrame_cons_ne {k k' : InternedStr} (h : k' ≠ k) (v : Name) (f : Frame) :
    lookupFrame k ((k', v) :: f) = lookupFrame k f := by
  simp [lookupFrame, h]

theorem lookupFrame_cons_isSome {k : InternedStr} {f : Frame} (k' : InternedStr) (v : Name)
    (h : (lookupFrame k f).isSome = true) :
    (lookupFrame k ((k', v) :: f)).isSome = true := by
  by_cases hk : k' = k <;> simp [lookupFrame, hk, h]

theorem setUidZeroFrame_lookup_self {k : InternedStr} {f : Frame} {nm : Name}
    (h : lookupFrame k f = some nm) :
    lookupFrame k (setUidZeroFrame k f) = some ⟨nm.name, 0⟩ := by
  induction f with
  | nil => simp [lookupFrame] at h
  | cons kv f ih =>
    obtain ⟨k', v⟩ := kv
    by_cases hk : k' = k
    · subst hk
      rw [lookupFrame_cons_self] at h
      cases h
      simp [setUidZeroFrame, lookupFrame]
    · rw [lookupFrame_cons_ne hk] at h
      simp only [setUidZeroFrame, hk, if_false]
      rw [lookupFrame_cons_ne hk]
      exact ih h

theorem setUidZeroFrame_lookup_ne {n k : InternedStr} (h : n ≠ k) (f : Frame) :
    lookupFrame n (setUidZeroFrame k f) = lookupFrame n f := by
  induction f with
  | nil => simp [setUidZeroFrame]
  | cons kv f ih =>
    obtain ⟨k', v⟩ := kv
    by_cases hk : k' = k
    · subst hk
      have hne : k' ≠ n := fun he => h he.symm
      simp [setUidZeroFrame, lookupFrame, hne]
    · by_cases hn : k' = n <;> simp [setUidZeroFrame, lookupFrame, hk, hn, h, ih]

theorem setUidZeroFrame_isSome (k n : InternedStr) (f : Frame) :
    (lookupFrame n (setUidZeroFrame k f)).isSome = (lookupFrame n f).isSome := by
  induction f with
  | nil => simp [setUidZeroFrame]
  | cons kv f ih =>
    obtain ⟨k', v⟩ := kv
    by_cases hk : k' = k
    · subst hk
      by_cases hn : k' = n
      · subst hn; simp [setUidZeroFrame, lookupFrame]
      · simp [setUidZeroFrame, lookupFrame, hn]
    · by_cases hn : k' = n
      · subst hn; simp [setUidZeroFrame, lookupFrame, hk]
      · simp [setUidZeroFrame, lookupFrame, hk, hn, ih]

theorem find_of_cur {m : ScopedMap} {k : InternedStr} {nm : Name}
    (h : lookupFrame k m.cur = some nm) : m.find k = some nm := by
  simp [ScopedMap.find, findInFrames, h]

theorem find_isSome_of_cur {m : ScopedMap} {k : InternedStr}
    (h : (lookupFrame k m.cur).isSome = true) : (m.find k).isSome = true := by
  cases hf : lookupFrame k m.cur with
  | none => rw [hf] at h; cases h
  | some nm => rw [find_of_cur hf]; rfl

theorem exit_restore {m m' : ScopedMap} (h : m'.rest = m.cur :: m.rest) :
    m'.exit_scope = m := by
  obtain ⟨c', r'⟩ := m'
  obtain ⟨c, rs⟩ := m
  simp only at h
  simp [ScopedMap.exit_scope, h]

/-! Characterizations of `make_unique`. -/

theorem make_unique_dup {r : Renamer} {n : InternedStr}
    (h : r.uniques.in_current_scope n = true) :
    r.make_unique n =
      ((r.uniques.find n).getD ⟨n, 0⟩,
       { r with errors := r.errors.insert (n ++ " is defined multiple times") }) := by
  simp [Renamer.make_unique, h]

theorem make_unique_fresh {r : Renamer} {n : InternedStr}
    (h : r.uniques.in_current_scope n = false) :
    r.make_unique n =
      (⟨n, r.unique_id + 1⟩,
       { r with uniques := r.uniques.insert n ⟨n, r.unique_id + 1⟩,
                unique_id := r.unique_id + 1 }) := by
  simp [Renamer.make_unique, h]

theorem make_unique_in_cur (r : Renamer) (n : InternedStr) :
    (lookupFrame n ((r.make_unique n).2.uniques.cur)).isSome = true := by
  cases h : r.uniques.in_current_scope n with
  | true =>
    rw [make_unique_dup h]
    exact h
  | false =>
    rw [make_unique_fresh h]
    simp [ScopedMap.insert, lookupFrame]

/-- With the symbol present in the current frame, `find` succeeds (the
`unwrap` inside the duplicate branch of `make_unique` cannot fail). -/
theorem make_unique_find_isSome {r : Renamer} {n : InternedStr}
    (h : r.uniques.in_current_scope n = true) :
    (r.uniques.find n).isSome = true :=
  find_isSome_of_cur h

/-! `StepOk` machinery. -/

theorem StepOk_rfl (r : Renamer) : StepOk r r :=
  ⟨Eq.refl _, Nat.le_refl _, [], by simp⟩

theorem StepOk.trans {a b c : Renamer} (h1 : StepOk a b) (h2 : StepOk b c) : StepOk a c := by
  obtain ⟨u1, i1, es1, e1⟩ := h1
  obtain ⟨u2, i2, es2, e2⟩ := h2
  exact ⟨u2.trans u1, i1.trans i2, es1 ++ es2, by rw [e2, e1, List.append_assoc]⟩

theorem make_unique_StepOk (r : Renamer) (n : InternedStr) :
    StepOk r ((r.make_unique n).2) := by
  cases h : r.uniques.in_current_scope n with
  | true =>
    rw [make_unique_dup h]
    exact ⟨rfl, Nat.le_refl _, [n ++ " is defined multiple times"], rfl⟩
  | false =>
    rw [make_unique_fresh h]
    exact ⟨rfl, Nat.le_succ _, [], by simp⟩

theorem set_uid_zero_cur {m : ScopedMap} {k : InternedStr}
    (h : (lookupFrame k m.cur).isSome = true) :
    m.set_uid_zero k = ⟨setUidZeroFrame k m.cur, m.rest⟩ := by
  simp [ScopedMap.set_uid_zero, h]

theorem register_one_StepOk (r : Renamer) (g : List (Binding InternedStr)) (ig : Bool) :
    StepOk r (register_one r g ig) := by
  cases g with
  | nil => exact StepOk_rfl r
  | cons b g =>
    have hm := make_unique_StepOk r b.name
    cases ig with
    | false => simpa [register_one] using hm
    | true =>
      simp only [register_one]
      rw [set_uid_zero_cur (make_unique_in_cur r b.name)]
      obtain ⟨u1, i1, es1, e1⟩ := hm
      exact ⟨u1, i1, es1, e1⟩

theorem register_StepOk (r : Renamer) (gs : List (List (Binding InternedStr))) (ig : Bool) :
    StepOk r (register_binding_groups r gs ig) := by
  induction gs generalizing r with
  | nil => exact StepOk_rfl r
  | cons g gs ih =>
    exact (register_one_StepOk r g ig).trans (ih _)

/-- Crossing one balanced `enter_scope` / `exit_scope` bracket preserves the
whole surrounding scope stack. -/
theorem StepOk_exit {r r' : Renamer}
    (h : StepOk { r with uniques := r.uniques.enter_scope } r') :
    StepOk r { r' with uniques := r'.uniques.exit_scope } := by
  obtain ⟨hu, hi, es, he⟩ := h
  have hex : r'.uniques.exit_scope = r.uniques :=
    exit_restore (by simpa [ScopedMap.enter_scope] using hu)
  exact ⟨by rw [hex], hi, es, he⟩

mutual
theorem rename_pattern_StepOk (r : Renamer) (p : Pattern InternedStr) :
    StepOk r ((r.rename_pattern p).2) := by
  cases p with
  | NumberPattern i => simp only [Renamer.rename_pattern]; exact StepOk_rfl r
  | ConstructorPattern s ps =>
    simp only [Renamer.rename_pattern]
    exact renamePatterns_StepOk r ps
  | IdentifierPattern s =>
    simp only [Renamer.rename_pattern]
    exact make_unique_StepOk r s
  | WildCardPattern => simp only [Renamer.rename_pattern]; exact StepOk_rfl r
theorem renamePatterns_StepOk (r : Renamer) (ps : PatternList InternedStr) :
    StepOk r ((r.renamePatterns ps).2) := by
  cases ps with
  | nil => simp only [Renamer.renamePatterns]; exact StepOk_rfl r
  | cons p ps =>
    simp only [Renamer.renamePatterns]
    exact (rename_pattern_StepOk r p).trans (renamePatterns_StepOk _ ps)
end

mutual
theorem rename_StepOk (r : Renamer) (e : TypedExpr InternedStr) :
    StepOk r ((r.rename e).2) := by
  cases e with
  | mk t l ex =>
    simp only [Renamer.rename]
    exact renameE_StepOk r ex

theorem renameE_StepOk (r : Renamer) (e : Expr InternedStr) :
    StepOk r ((r.renameE e).2) := by
  cases e with
  | Literal l => simp only [Renamer.renameE]; exact StepOk_rfl r
  | Identifier i => simp only [Renamer.renameE]; exact StepOk_rfl r
  | Apply f a =>
    simp only [Renamer.renameE]
    exact (rename_StepOk r f).trans (rename_StepOk _ a)
  | Lambda arg body =>
    simp only [Renamer.renameE]
    exact StepOk_exit ((rename_pattern_StepOk _ arg).trans (rename_StepOk _ body))
  | Let bs body =>
    simp only [Renamer.renameE]
    exact StepOk_exit (((register_StepOk _ _ false).trans
      (renameClauseList_StepOk _ bs)).trans (rename_StepOk _ body))
  | Case scrut alts =>
    simp only [Renamer.renameE]
    exact (renameAlts_StepOk r alts).trans (rename_StepOk _ scrut)
  | Do stmts tail =>
    simp only [Renamer.renameE]
    exact (renameDoBindings_StepOk r stmts).trans (rename_StepOk _ tail)

theorem rename_clause_StepOk (r : Renamer) (b : Binding InternedStr) :
    StepOk r ((r.rename_clause b).2) := by
  cases b with
  | mk n args e td ar =>
    simp only [Renamer.rename_clause, Renamer.rename_arguments]
    exact StepOk_exit ((renamePatterns_StepOk _ args).trans (rename_StepOk _ e))

theorem renameClauseList_StepOk (r : Renamer) (bs : BindingList InternedStr) :
    StepOk r ((r.renameClauseList bs).2) := by
  cases bs with
  | nil => simp only [Renamer.renameClauseList]; exact StepOk_rfl r
  | cons b bs =>
    simp only [Renamer.renameClauseList]
    exact (rename_clause_StepOk r b).trans (renameClauseList_StepOk _ bs)

theorem renameAlts_StepOk (r : Renamer) (alts : AltList InternedStr) :
    StepOk r ((r.renameAlts alts).2) := by
  cases alts with
  | nil => simp only [Renamer.renameAlts]; exact StepOk_rfl r
  | cons a rest =>
    cases a with
    | mk p e =>
      cases p with
      | mk loc pat =>
        simp only [Renamer.renameAlts]
        exact (StepOk_exit ((rename_pattern_StepOk _ pat).trans
          (rename_StepOk _ e))).trans (renameAlts_StepOk _ rest)

theorem renameDoBindings_StepOk (r : Renamer) (stmts : DoList InternedStr) :
    StepOk r ((r.renameDoBindings stmts).2) := by
  cases stmts with
  | nil => simp only [Renamer.renameDoBindings]; exact StepOk_rfl r
  | cons s rest =>
    cases s with
    | DoExpr e =>
      simp only [Renamer.renameDoBindings]
      exact (rename_StepOk r e).trans (renameDoBindings_StepOk _ rest)
    | DoLet bs =>
      simp only [Renamer.renameDoBindings]
      exact ((register_StepOk _ _ false).trans (renameClauseList_StepOk _ bs)).trans
        (renameDoBindings_StepOk _ rest)
    | DoBind p e =>
      cases p with
      | mk loc pat =>
        simp only [Renamer.renameDoBindings]
        exact ((rename_pattern_StepOk r pat).trans (rename_StepOk _ e)).trans
          (renameDoBindings_StepOk _ rest)
end

/-- Processing one clause leaves the scope table exactly as it was: the
clause's argument/body scope is opened and closed around it. -/
theorem rename_clause_uniques (r : Renamer) (b : Binding InternedStr) :
    ((r.rename_clause b).2).uniques = r.uniques := by
  cases b with
  | mk n args e td ar =>
    have h := (renamePatterns_StepOk { r with uniques := r.uniques.enter_scope } args).trans
      (rename_StepOk _ e)
    simp only [Renamer.rename_clause, Renamer.rename_arguments]
    exact exit_restore (by simpa [ScopedMap.enter_scope] using h.1)

/-- The clause loop leaves the scope table exactly as it was. -/
theorem renameClauseList_uniques (r : Renamer) (bs : BindingList InternedStr) :
    ((r.renameClauseList bs).2).uniques = r.uniques := by
  cases bs with
  | nil => rfl
  | cons b bs =>
    simp only [Renamer.renameClauseList]
    rw [renameClauseList_uniques _ bs, rename_clause_uniques]

/-! Effects of the registration phase of `rename_bindings`. -/

theorem set_uid_zero_zeroAt {m : ScopedMap} {k : InternedStr}
    (h : (lookupFrame k m.cur).isSome = true) :
    ∃ nm, lookupFrame k ((m.set_uid_zero k).cur) = some nm ∧ nm.uid = 0 := by
  rw [set_uid_zero_cur h]
  cases hf : lookupFrame k m.cur with
  | none => rw [hf] at h; cases h
  | some nm0 => exact ⟨⟨nm0.name, 0⟩, setUidZeroFrame_lookup_self hf, rfl⟩

theorem set_uid_zero_preserves_zeroAt {m : ScopedMap} {k n : InternedStr}
    (hz : ∃ nm, lookupFrame n m.cur = some nm ∧ nm.uid = 0) :
    ∃ nm, lookupFrame n ((m.set_uid_zero k).cur) = some nm ∧ nm.uid = 0 := by
  obtain ⟨nm, hl, hu⟩ := hz
  cases hcur : (lookupFrame k m.cur).isSome with
  | true =>
    rw [set_uid_zero_cur hcur]
    by_cases hk : n = k
    · subst hk
      exact ⟨⟨nm.name, 0⟩, setUidZeroFrame_lookup_self hl, rfl⟩
    · rw [show (⟨setUidZeroFrame k m.cur, m.rest⟩ : ScopedMap).cur = setUidZeroFrame k m.cur
          from rfl]
      rw [setUidZeroFrame_lookup_ne hk]
      exact ⟨nm, hl, hu⟩
  | false =>
    have : m.set_uid_zero k = ⟨m.cur, zeroInFrames k m.rest⟩ := by
      simp [ScopedMap.set_uid_zero, hcur]
    rw [this]
    exact ⟨nm, hl, hu⟩

theorem make_unique_preserves_zeroAt {r : Renamer} {n : InternedStr} (k : InternedStr)
    (hz : ∃ nm, lookupFrame n r.uniques.cur = some nm ∧ nm.uid = 0) :
    ∃ nm, lookupFrame n (((r.make_unique k).2).uniques.cur) = some nm ∧ nm.uid = 0 := by
  obtain ⟨nm, hl, hu⟩ := hz
  cases hc : r.uniques.in_current_scope k with
  | true => rw [make_unique_dup hc]; exact ⟨nm, hl, hu⟩
  | false =>
    rw [make_unique_fresh hc]
    have hk : k ≠ n := by
      intro he
      subst he
      rw [ScopedMap.in_current_scope, hl] at hc
      cases hc
    refine ⟨nm, ?_, hu⟩
    show lookupFrame n ((k, _) :: r.uniques.cur) = some nm
    rw [lookupFrame_cons_ne hk]
    exact hl

theorem register_one_preserves_zero {r : Renamer} {n : InternedStr}
    (g : List (Binding InternedStr))
    (hz : ∃ nm, lookupFrame n r.uniques.cur = some nm ∧ nm.uid = 0) :
    ∃ nm, lookupFrame n ((register_one r g true).uniques.cur) = some nm ∧ nm.uid = 0 := by
  cases g with
  | nil => exact hz
  | cons b g' =>
    simp only [register_one, if_true]
    exact set_uid_zero_preserves_zeroAt (make_unique_preserves_zeroAt b.name hz)

theorem register_preserves_zero {n : InternedStr} (r : Renamer)
    (gs : List (List (Binding InternedStr)))
    (hz : ∃ nm, lookupFrame n r.uniques.cur = some nm ∧ nm.uid = 0) :
    ∃ nm, lookupFrame n ((register_binding_groups r gs true).uniques.cur) = some nm ∧
      nm.uid = 0 := by
  induction gs generalizing r with
  | nil => exact hz
  | cons g gs ih => exact ih _ (register_one_preserves_zero g hz)

theorem register_one_establishes_zero (r : Renamer) (b : Binding InternedStr)
    (g : List (Binding InternedStr)) :
    ∃ nm, lookupFrame b.name ((register_one r (b :: g) true).uniques.cur) = some nm ∧
      nm.uid = 0 := by
  simp only [register_one, if_true]
  exact set_uid_zero_zeroAt (make_unique_in_cur r b.name)

theorem register_establishes_zero (r : Renamer) (gs : List (List (Binding InternedStr))) :
    ∀ n ∈ groupHeadNames gs,
      ∃ nm, lookupFrame n ((register_binding_groups r gs true).uniques.cur) = some nm ∧
        nm.uid = 0 := by
  induction gs generalizing r with
  | nil => intro n hn; simp [groupHeadNames] at hn
  | cons g gs ih =>
    intro n hn
    cases g with
    | nil =>
      have hn' : n ∈ groupHeadNames gs := by
        simpa [groupHeadNames, List.filterMap_cons] using hn
      exact ih _ n hn'
    | cons b g' =>
      have hn' : n = b.name ∨ n ∈ groupHeadNames gs := by
        simpa [groupHeadNames, List.filterMap_cons] using hn
      rcases hn' with rfl | hmem
      · exact register_preserves_zero _ gs (register_one_establishes_zero r b g')
      · exact ih _ n hmem

theorem register_one_preserves_isSome {r : Renamer} {n : InternedStr}
    (g : List (Binding InternedStr)) (ig : Bool)
    (h : (lookupFrame n r.uniques.cur).isSome = true) :
    (lookupFrame n ((register_one r g ig).uniques.cur)).isSome = true := by
  cases g with
  | nil => exact h
  | cons b g' =>
    have h1 : (lookupFrame n (((r.make_unique b.name).2).uniques.cur)).isSome = true := by
      cases hc : r.uniques.in_current_scope b.name with
      | true => rw [make_unique_dup hc]; exact h
      | false =>
        rw [make_unique_fresh hc]
        exact lookupFrame_cons_isSome _ _ h
    cases ig with
    | false => simpa [register_one] using h1
    | true =>
      simp only [register_one, if_true]
      rw [set_uid_zero_cur (make_unique_in_cur r b.name)]
      show (lookupFrame n (setUidZeroFrame b.name _)).isSome = true
      rw [setUidZeroFrame_isSome]
      exact h1

theorem register_preserves_isSome {n : InternedStr} (r : Renamer)
    (gs : List (List (Binding InternedStr))) (ig : Bool)
    (h : (lookupFrame n r.uniques.cur).isSome = true) :
    (lookupFrame n ((register_binding_groups r gs ig).uniques.cur)).isSome = true := by
  induction gs generalizing r with
  | nil => exact h
  | cons g gs ih => exact ih _ (register_one_preserves_isSome g ig h)

theorem register_one_establishes_isSome (r : Renamer) (b : Binding InternedStr)
    (g : List (Binding InternedStr)) (ig : Bool) :
    (lookupFrame b.name ((register_one r (b :: g) ig).uniques.cur)).isSome = true := by
  cases ig with
  | false => simpa [register_one] using make_unique_in_cur r b.name
  | true =>
    simp only [register_one, if_true]
    rw [set_uid_zero_cur (make_unique_in_cur r b.name)]
    show (lookupFrame b.name (setUidZeroFrame b.name _)).isSome = true
    rw [setUidZeroFrame_isSome]
    exact make_unique_in_cur r b.name

theorem register_establishes_isSome (r : Renamer) (gs : List (List (Binding InternedStr)))
    (ig : Bool) :
    ∀ n ∈ groupHeadNames gs,
      (lookupFrame n ((register_binding_groups r gs ig).uniques.cur)).isSome = true := by
  induction gs generalizing r with
  | nil => intro n hn; simp [groupHeadNames] at hn
  | cons g gs ih =>
    intro n hn
    cases g with
    | nil =>
      have hn' : n ∈ groupHeadNames gs := by
        simpa [groupHeadNames, List.filterMap_cons] using hn
      exact ih _ n hn'
    | cons b g' =>
      have hn' : n = b.name ∨ n ∈ groupHeadNames gs := by
        simpa [groupHeadNames, List.filterMap_cons] using hn
      rcases hn' with rfl | hmem
      · exact register_preserves_isSome _ gs ig (register_one_establishes_isSome r b g' ig)
      · exact ih _ n hmem

theorem groupHeads_cons_nil (gs : List (List (Binding InternedStr))) :
    groupHeadNames ([] :: gs) = groupHeadNames gs := by
  simp [groupHeadNames, List.filterMap_cons]

theorem groupHeads_cons_cons (b : Binding InternedStr) (g' : List (Binding InternedStr))
    (gs : List (List (Binding InternedStr))) :
    groupHeadNames ((b :: g') :: gs) = b.name :: groupHeadNames gs := by
  simp [groupHeadNames, List.filterMap_cons]

/-- Every clause's name is the head name of some binding group: the grouping
partitions the list into runs of equal names. -/
theorem name_mem_groupHeads (bs : List (Binding InternedStr)) (b : Binding InternedStr)
    (hb : b ∈ bs) : b.name ∈ groupHeadNames (binding_groups bs) := by
  induction bs with
  | nil => cases hb
  | cons b0 bs ih =>
    simp only [binding_groups]
    rcases List.mem_cons.mp hb with rfl | hmem
    · cases hg : binding_groups bs with
      | nil =>
        rw [groupHeads_cons_cons]
        exact List.mem_cons_self _ _
      | cons g gs' =>
        cases g with
        | nil =>
          rw [groupHeads_cons_cons]
          exact List.mem_cons_self _ _
        | cons b2 g' =>
          by_cases hn : b.name = b2.name
          · show b.name ∈ groupHeadNames
              (if b.name = b2.name then (b :: b2 :: g') :: gs' else [b] :: (b2 :: g') :: gs')
            rw [if_pos hn, groupHeads_cons_cons]
            exact List.mem_cons_self _ _
          · show b.name ∈ groupHeadNames
              (if b.name = b2.name then (b :: b2 :: g') :: gs' else [b] :: (b2 :: g') :: gs')
            rw [if_neg hn, groupHeads_cons_cons]
            exact List.mem_cons_self _ _
    · have hmem' := ih hmem
      cases hg : binding_groups bs with
      | nil =>
        rw [hg] at hmem'
        simp [groupHeadNames] at hmem'
      | cons g gs' =>
        rw [hg] at hmem'
        cases g with
        | nil =>
          rw [groupHeads_cons_nil] at hmem'
          rw [groupHeads_cons_cons, groupHeads_cons_nil]
          exact List.mem_cons_of_mem _ hmem'
        | cons b2 g' =>
          rw [groupHeads_cons_cons] at hmem'
          by_cases hn : b0.name = b2.name
          · show b.name ∈ groupHeadNames
              (if b0.name = b2.name then (b0 :: b2 :: g') :: gs' else [b0] :: (b2 :: g') :: gs')
            rw [if_pos hn, groupHeads_cons_cons]
            rcases List.mem_cons.mp hmem' with heq | hmem2
            · rw [heq, ← hn]
              exact List.mem_cons_self _ _
            · exact List.mem_cons_of_mem _ hmem2
          · show b.name ∈ groupHeadNames
              (if b0.name = b2.name then (b0 :: b2 :: g') :: gs' else [b0] :: (b2 :: g') :: gs')
            rw [if_neg hn, groupHeads_cons_cons, groupHeads_cons_cons]
            exact List.mem_cons_of_mem _ hmem'

/-- After the registration phase of a global binding list, every clause name
resolves through `find` to a registered `Name` carrying the global sentinel. -/
theorem register_bs_zero (r : Renamer) (bs : BindingList InternedStr) :
    ∀ b ∈ bs.toList,
      ∃ nm, (register_binding_groups r (binding_groups bs.toList) true).uniques.find b.name =
        some nm ∧ nm.uid = 0 := by
  intro b hb
  obtain ⟨nm, hl, hu⟩ :=
    register_establishes_zero r (binding_groups bs.toList) b.name
      (name_mem_groupHeads bs.toList b hb)
  exact ⟨nm, find_of_cur hl, hu⟩

/-- After the registration phase (global or not), every clause name resolves
through `find`. -/
theorem register_bs_isSome (r : Renamer) (bs : BindingList InternedStr) (ig : Bool) :
    ∀ b ∈ bs.toList,
      ((register_binding_groups r (binding_groups bs.toList) ig).uniques.find b.name).isSome =
        true := by
  intro b hb
  exact find_isSome_of_cur
    (register_establishes_isSome r (binding_groups bs.toList) ig b.name
      (name_mem_groupHeads bs.toList b hb))

/-- The output name of one clause is the scope table's `find` result for the
clause's source name. -/
theorem rename_clause_name (r : Renamer) (b : Binding InternedStr) :
    ((r.rename_clause b).1).name = (r.uniques.find b.name).getD ⟨b.name, 1⟩ := by
  cases b with
  | mk n args e td ar => rfl

theorem renameClauseList_names_zero (r : Renamer) (bs : BindingList InternedStr)
    (h : ∀ b ∈ bs.toList, ∃ nm, r.uniques.find b.name = some nm ∧ nm.uid = 0) :
    ∀ nm ∈ ((r.renameClauseList bs).1).names, nm.uid = 0 := by
  cases bs with
  | nil => intro nm hm; cases hm
  | cons b bs =>
    intro nm hm
    have hm' : nm = ((r.rename_clause b).1).name ∨
        nm ∈ ((((r.rename_clause b).2).renameClauseList bs).1).names := by
      simpa [Renamer.renameClauseList, BindingList.names] using hm
    rcases hm' with rfl | hmem
    · obtain ⟨nm0, hf, hu⟩ := h b (by simp [BindingList.toList])
      rw [rename_clause_name, hf]
      exact hu
    · refine renameClauseList_names_zero ((r.rename_clause b).2) bs ?_ nm hmem
      intro b' hb'
      rw [rename_clause_uniques]
      exact h b' (by simp [BindingList.toList, hb'])

/-- Every clause name in the output of a global `rename_bindings` carries the
global sentinel uid 0. -/
theorem rename_bindings_global_names_zero (r : Renamer) (bs : BindingList InternedStr) :
    ∀ nm ∈ ((r.rename_bindings bs true).1).names, nm.uid = 0 := by
  simp only [Renamer.rename_bindings]
  exact renameClauseList_names_zero _ bs (register_bs_zero r bs)

/-! Shape of the renamed output: metadata is preserved node for node, and
every constructor-pattern head carries the global sentinel. -/

mutual
theorem rename_pattern_cz (r : Renamer) (p : Pattern InternedStr) :
    ((r.rename_pattern p).1).ctorsZero = true := by
  cases p with
  | NumberPattern i => rfl
  | ConstructorPattern s ps =>
    simp only [Renamer.rename_pattern, Pattern.ctorsZero]
    simp [renamePatterns_cz r ps]
  | IdentifierPattern s => rfl
  | WildCardPattern => rfl
theorem renamePatterns_cz (r : Renamer) (ps : PatternList InternedStr) :
    ((r.renamePatterns ps).1).ctorsZero = true := by
  cases ps with
  | nil => rfl
  | cons p ps =>
    simp only [Renamer.renamePatterns, PatternList.ctorsZero]
    simp [rename_pattern_cz r p, renamePatterns_cz (r.rename_pattern p).2 ps]
end

mutual
theorem rename_shape (r : Renamer) (e : TypedExpr InternedStr) :
    ((r.rename e).1).metas = e.metas ∧ ((r.rename e).1).ctorsZero = true := by
  cases e with
  | mk t l ex =>
    have h := renameE_shape r ex
    simp only [Renamer.rename, TypedExpr.metas, TypedExpr.ctorsZero]
    exact ⟨by rw [h.1], h.2⟩

theorem renameE_shape (r : Renamer) (e : Expr InternedStr) :
    ((r.renameE e).1).metas = e.metas ∧ ((r.renameE e).1).ctorsZero = true := by
  cases e with
  | Literal l => exact ⟨rfl, rfl⟩
  | Identifier i => exact ⟨rfl, rfl⟩
  | Apply f a =>
    simp only [Renamer.renameE, Expr.metas, Expr.ctorsZero]
    refine ⟨?_, ?_⟩
    · rw [(rename_shape r f).1, (rename_shape _ a).1]
    · rw [Bool.and_eq_true]
      exact ⟨(rename_shape r f).2, (rename_shape _ a).2⟩
  | Lambda arg body =>
    simp only [Renamer.renameE, Expr.metas, Expr.ctorsZero]
    refine ⟨(rename_shape _ body).1, ?_⟩
    rw [Bool.and_eq_true]
    exact ⟨rename_pattern_cz _ arg, (rename_shape _ body).2⟩
  | Let bs body =>
    simp only [Renamer.renameE, Expr.metas, Expr.ctorsZero]
    refine ⟨?_, ?_⟩
    · rw [(renameClauseList_shape _ bs).1, (rename_shape _ body).1]
    · rw [Bool.and_eq_true]
      exact ⟨(renameClauseList_shape _ bs).2, (rename_shape _ body).2⟩
  | Case scrut alts =>
    simp only [Renamer.renameE, Expr.metas, Expr.ctorsZero]
    refine ⟨?_, ?_⟩
    · rw [(renameAlts_shape r alts).1, (rename_shape _ scrut).1]
    · rw [Bool.and_eq_true]
      exact ⟨(rename_shape _ scrut).2, (renameAlts_shape r alts).2⟩
  | Do stmts tail =>
    simp only [Renamer.renameE, Expr.metas, Expr.ctorsZero]
    refine ⟨?_, ?_⟩
    · rw [(renameDoBindings_shape r stmts).1, (rename_shape _ tail).1]
    · rw [Bool.and_eq_true]
      exact ⟨(renameDoBindings_shape r stmts).2, (rename_shape _ tail).2⟩

theorem rename_clause_shape (r : Renamer) (b : Binding InternedStr) :
    ((r.rename_clause b).1).metas = b.metas ∧ ((r.rename_clause b).1).ctorsZero = true := by
  cases b with
  | mk n args e td ar =>
    simp only [Renamer.rename_clause, Renamer.rename_arguments, Binding.metas,
      Binding.ctorsZero]
    refine ⟨(rename_shape _ e).1, ?_⟩
    rw [Bool.and_eq_true]
    exact ⟨renamePatterns_cz _ args, (rename_shape _ e).2⟩

theorem renameClauseList_shape (r : Renamer) (bs : BindingList InternedStr) :
    ((r.renameClauseList bs).1).metas = bs.metas ∧
      ((r.renameClauseList bs).1).ctorsZero = true := by
  cases bs with
  | nil => exact ⟨rfl, rfl⟩
  | cons b bs =>
    simp only [Renamer.renameClauseList, BindingList.metas, BindingList.ctorsZero]
    refine ⟨?_, ?_⟩
    · rw [(rename_clause_shape r b).1, (renameClauseList_shape _ bs).1]
    · rw [Bool.and_eq_true]
      exact ⟨(rename_clause_shape r b).2, (renameClauseList_shape _ bs).2⟩

theorem renameAlts_shape (r : Renamer) (alts : AltList InternedStr) :
    ((r.renameAlts alts).1).metas = alts.metas ∧
      ((r.renameAlts alts).1).ctorsZero = true := by
  cases alts with
  | nil => exact ⟨rfl, rfl⟩
  | cons a rest =>
    cases a with
    | mk p e =>
      cases p with
      | mk loc pat =>
        simp only [Renamer.renameAlts, AltList.metas, AltList.ctorsZero,
          Alternative.metas, Alternative.ctorsZero]
        refine ⟨?_, ?_⟩
        · rw [(rename_shape _ e).1, (renameAlts_shape _ rest).1]
        · simp only [Bool.and_eq_true]
          exact ⟨⟨rename_pattern_cz _ pat, (rename_shape _ e).2⟩,
            (renameAlts_shape _ rest).2⟩

theorem renameDoBindings_shape (r : Renamer) (stmts : DoList InternedStr) :
    ((r.renameDoBindings stmts).1).metas = stmts.metas ∧
      ((r.renameDoBindings stmts).1).ctorsZero = true := by
  cases stmts with
  | nil => exact ⟨rfl, rfl⟩
  | cons s rest =>
    cases s with
    | DoExpr e =>
      simp only [Renamer.renameDoBindings, DoList.metas, DoList.ctorsZero,
        DoBinding.metas, DoBinding.ctorsZero]
      refine ⟨?_, ?_⟩
      · rw [(rename_shape r e).1, (renameDoBindings_shape _ rest).1]
      · rw [Bool.and_eq_true]
        exact ⟨(rename_shape r e).2, (renameDoBindings_shape _ rest).2⟩
    | DoLet bs =>
      simp only [Renamer.renameDoBindings, DoList.metas, DoList.ctorsZero,
        DoBinding.metas, DoBinding.ctorsZero]
      refine ⟨?_, ?_⟩
      · rw [(renameClauseList_shape _ bs).1, (renameDoBindings_shape _ rest).1]
      · rw [Bool.and_eq_true]
        exact ⟨(renameClauseList_shape _ bs).2, (renameDoBindings_shape _ rest).2⟩
    | DoBind p e =>
      cases p with
      | mk loc pat =>
        simp only [Renamer.renameDoBindings, DoList.metas, DoList.ctorsZero,
          DoBinding.metas, DoBinding.ctorsZero]
        refine ⟨?_, ?_⟩
        · rw [(rename_shape _ e).1, (renameDoBindings_shape _ rest).1]
        · simp only [Bool.and_eq_true]
          exact ⟨⟨rename_pattern_cz _ pat, (rename_shape _ e).2⟩,
            (renameDoBindings_shape _ rest).2⟩
end

/-! Module-level consequences. -/

theorem rename_bindings_global_namesAllZero (r : Renamer) (bs : BindingList InternedStr) :
    namesAllZero ((r.rename_bindings bs true).1) = true := by
  simp only [namesAllZero, List.all_eq_true]
  intro nm hm
  simpa using rename_bindings_global_names_zero r bs nm hm

theorem rename_bindings_cz (r : Renamer) (bs : BindingList InternedStr) (ig : Bool) :
    ((r.rename_bindings bs ig).1).ctorsZero = true := by
  simp only [Renamer.rename_bindings]
  exact (renameClauseList_shape _ bs).2

theorem renameInstances_mem (r : Renamer) (insts : List (Instance InternedStr)) :
    ∀ i' ∈ (r.renameInstances insts).1,
      namesAllZero i'.bindings = true ∧ (i'.bindings).ctorsZero = true := by
  induction insts generalizing r with
  | nil => intro i' h; cases h
  | cons i rest ih =>
    intro i' h
    rcases List.mem_cons.mp (by simpa [Renamer.renameInstances] using h) with rfl | hmem
    · exact ⟨rename_bindings_global_namesAllZero _ _, rename_bindings_cz _ _ _⟩
    · exact ih _ i' hmem

theorem renameDataDefs_zero (ds : List (DataDefinition InternedStr)) :
    dataCtorsZero (renameDataDefs ds) = true := by
  simp [dataCtorsZero, renameDataDefs, List.all_eq_true]

theorem rename_bindings_StepOk (r : Renamer) (bs : BindingList InternedStr) (ig : Bool) :
    StepOk r ((r.rename_bindings bs ig).2) := by
  simp only [Renamer.rename_bindings]
  exact (register_StepOk r _ ig).trans (renameClauseList_StepOk _ bs)

theorem renameInstances_StepOk (r : Renamer) (insts : List (Instance InternedStr)) :
    StepOk r ((r.renameInstances insts).2) := by
  induction insts generalizing r with
  | nil => exact StepOk_rfl r
  | cons i rest ih =>
    simp only [Renamer.renameInstances]
    exact (rename_bindings_StepOk r i.bindings true).trans (ih _)

theorem rename_module_StepOk (r : Renamer) (m : Module InternedStr) :
    StepOk r ((rename_module_ r m).2) := by
  simp only [rename_module_]
  exact ((renameInstances_StepOk r m.instances).trans
    (rename_bindings_StepOk _ m.bindings true)).trans (make_unique_StepOk _ m.name)

theorem rename_modules_go_errs (r : Renamer) (ms : List (Module InternedStr)) :
    ∃ es, ((rename_modules_go r ms).2).errors.errors = r.errors.errors ++ es := by
  induction ms generalizing r with
  | nil => exact ⟨[], by simp [rename_modules_go]⟩
  | cons m ms ih =>
    simp only [rename_modules_go]
    obtain ⟨es1, h1⟩ := (rename_module_StepOk r m).2.2
    obtain ⟨es2, h2⟩ := ih (rename_module_ r m).2
    exact ⟨es1 ++ es2, by rw [h2, h1, List.append_assoc]⟩

theorem has_errors_iff (es : Errors) : es.has_errors = true ↔ es.errors ≠ [] := by
  simp [Errors.has_errors, List.length_eq_zero]

/-! The claims. -/

/-- C1 (counterexample): renaming the binding list `x ; y ; x` through one
fresh `Renamer` assigns the same non-zero uid `2` to the first and the third
binding occurrence — two distinct local binding occurrences (their arity
payloads are 7 and 9), both assigned a non-zero uid; a duplicate-definition
diagnostic is recorded alongside.  This refutes the claim as stated. -/
theorem claim1_counterexample :
    ((Renamer.new.rename_bindings demo1Bs false).1).names =
        [⟨"x", 2⟩, ⟨"y", 3⟩, ⟨"x", 2⟩] ∧
    ((Renamer.new.rename_bindings demo1Bs false).1).toList.map Binding.arity = [7, 8, 9] ∧
    ((Renamer.new.rename_bindings demo1Bs false).2).errors.errors =
        ["x is defined multiple times"] ∧
    (2 : Nat) ≠ 0 :=
  ⟨by decide, by decide, by decide, by decide⟩

/-- C1 (amended): within one fresh-counter lifetime, two distinct binding
occurrences registered through the fresh branch of `make_unique` always
receive different (and non-zero) uids, with arbitrary renaming work in
between: the counter strictly increases past each minted value and never
decreases.  UIDs can repeat only for occurrences that trigger a
`DuplicateDefinition` diagnostic, which deliberately reuse the first
registered `Name` (see the counterexample). -/
theorem claim1_amended_fresh_uids_distinct (r : Renamer) (n₁ n₂ : InternedStr)
    (e : TypedExpr InternedStr)
    (h₁ : r.uniques.in_current_scope n₁ = false)
    (h₂ : ((((r.make_unique n₁).2).rename e).2).uniques.in_current_scope n₂ = false) :
    (((((r.make_unique n₁).2).rename e).2).make_unique n₂).1.uid ≠
        (r.make_unique n₁).1.uid ∧
    (r.make_unique n₁).1.uid ≠ 0 ∧
    (((((r.make_unique n₁).2).rename e).2).make_unique n₂).1.uid ≠ 0 := by
  have hmono := (rename_StepOk ((r.make_unique n₁).2) e).2.1
  rw [make_unique_fresh h₂, make_unique_fresh h₁]
  rw [make_unique_fresh h₁] at hmono
  simp at hmono ⊢
  omega

/-- C1 (witness): the amended theorem at a fresh renamer — mint `x` (uid 2),
rename a literal, mint `y` (uid 3): the uids differ and are non-zero. -/
theorem claim1_witness :
    ((((Renamer.new.make_unique "x").2).rename (.mk 0 0 (.Literal 0))).2.make_unique
        "y").1.uid ≠ (Renamer.new.make_unique "x").1.uid ∧
    (Renamer.new.make_unique "x").1.uid ≠ 0 ∧
    ((((Renamer.new.make_unique "x").2).rename (.mk 0 0 (.Literal 0))).2.make_unique
        "y").1.uid ≠ 0 :=
  claim1_amended_fresh_uids_distinct Renamer.new "x" "y" (.mk 0 0 (.Literal 0))
    (by decide) (by decide)

/-- C2: when a symbol is already bound in the current innermost frame,
`make_unique` records the duplicate-definition diagnostic for that symbol at
the end of the error list, reuses the `Name` registered for it (the only one
ever registered in that frame, since the fresh branch is the sole insertion
point and is guarded by the same test), mints no new uid, leaves the scope
table untouched, and returns normally, so the traversal continues renaming
the rest of the program. -/
theorem claim2_duplicate_recovery (r : Renamer) (s : InternedStr) (nm : Name)
    (hin : r.uniques.in_current_scope s = true)
    (hfind : r.uniques.find s = some nm) :
    (r.make_unique s).1 = nm ∧
    (r.make_unique s).2.uniques = r.uniques ∧
    (r.make_unique s).2.unique_id = r.unique_id ∧
    (r.make_unique s).2.errors.errors =
      r.errors.errors ++ [s ++ " is defined multiple times"] := by
  rw [make_unique_dup hin]
  exact ⟨by rw [hfind]; rfl, rfl, rfl, rfl⟩

/-- C2 (witness): registering `x` twice on a fresh renamer — the second
registration returns the first `Name{x, 2}`, keeps table and counter, and
appends exactly the duplicate diagnostic. -/
theorem claim2_witness :
    (((Renamer.new.make_unique "x").2).make_unique "x").1 = ⟨"x", 2⟩ ∧
    (((Renamer.new.make_unique "x").2).make_unique "x").2.uniques =
      ((Renamer.new.make_unique "x").2).uniques ∧
    (((Renamer.new.make_unique "x").2).make_unique "x").2.unique_id =
      ((Renamer.new.make_unique "x").2).unique_id ∧
    (((Renamer.new.make_unique "x").2).make_unique "x").2.errors.errors =
      ((Renamer.new.make_unique "x").2).errors.errors ++
        ["x is defined multiple times"] :=
  claim2_duplicate_recovery _ "x" ⟨"x", 2⟩ (by decide) (by decide)

/-- C3: an `Identifier(s)` occurrence resolves through the scope table: when
a binding is found the occurrence is renamed to a `Name` carrying that
binding's uid; when no enclosing scope binds `s` it is renamed to
`Name{s, 0}`; in both cases the renamer state — in particular the error
accumulator — is returned unchanged, so no diagnostic is produced. -/
theorem claim3_identifier_resolution (r : Renamer) (s : InternedStr) (t : TypeAnn)
    (l : Location) :
    (∀ nm, r.uniques.find s = some nm → r.get_name s = ⟨s, nm.uid⟩) ∧
    (r.uniques.find s = none → r.get_name s = ⟨s, 0⟩) ∧
    r.rename (.mk t l (.Identifier s)) = (.mk t l (.Identifier (r.get_name s)), r) := by
  refine ⟨?_, ?_, rfl⟩
  · intro nm h
    simp [Renamer.get_name, h]
  · intro h
    simp [Renamer.get_name, h]

/-- C3 (witness): a bound `x` resolves to its uid 2; an unbound `y` resolves
to `Name{y, 0}`; renaming an `Identifier` node returns the state unchanged. -/
theorem claim3_witness :
    ((Renamer.new.make_unique "x").2).get_name "x" = ⟨"x", 2⟩ ∧
    Renamer.new.get_name "y" = ⟨"y", 0⟩ ∧
    Renamer.new.rename (.mk 3 4 (.Identifier "y")) =
      (.mk 3 4 (.Identifier (Renamer.new.get_name "y")), Renamer.new) := by
  refine ⟨?_, ?_, ?_⟩
  · exact (claim3_identifier_resolution ((Renamer.new.make_unique "x").2) "x" 0 0).1
      ⟨"x", 2⟩ (by decide)
  · exact (claim3_identifier_resolution Renamer.new "y" 0 0).2.1 (by decide)
  · exact (claim3_identifier_resolution Renamer.new "y" 3 4).2.2

/-- C4: in the output of `rename_module_` (any renamer state, any module),
every top-level binding name, every instance-method binding name and every
data-definition constructor name carries uid 0, and every
`ConstructorPattern` head anywhere inside the renamed top-level and
instance-method bindings carries uid 0. -/
theorem claim4_global_sentinel_zero (r : Renamer) (m : Module InternedStr) :
    namesAllZero ((rename_module_ r m).1).bindings = true ∧
    instancesNamesZero ((rename_module_ r m).1).instances = true ∧
    dataCtorsZero ((rename_module_ r m).1).dataDefinitions = true ∧
    ((rename_module_ r m).1).bindings.ctorsZero = true ∧
    instancesCtorsZero ((rename_module_ r m).1).instances = true := by
  refine ⟨?_, ?_, ?_, ?_, ?_⟩
  · exact rename_bindings_global_namesAllZero _ m.bindings
  · simp only [rename_module_, instancesNamesZero, List.all_eq_true]
    intro i' h
    exact (renameInstances_mem r m.instances i' h).1
  · exact renameDataDefs_zero m.dataDefinitions
  · exact rename_bindings_cz _ m.bindings true
  · simp only [rename_module_, instancesCtorsZero, List.all_eq_true]
    intro i' h
    exact (renameInstances_mem r m.instances i' h).2

/-- C5 (code bug, failing input): evaluating the renamer at
`do { x <- x; 9 }` with `x` unbound outside.  The source (lines 120–124 of
`src/renamer.rs`) renames the `DoBind` pattern before the bound expression,
so the expression's `x` resolves to the pattern's freshly minted uid 2; under
the claimed (and Haskell-correct) order — expression first, pattern second —
the expression's `x` would be the free reference `Name{x, 0}`. -/
theorem claim5_dobind_order_eval :
    (Renamer.new.rename demo5Do).1 =
      .mk 0 5 (.Do (.cons (.DoBind (Located.mk 6 (.IdentifierPattern ⟨"x", 2⟩))
        (.mk 1 7 (.Identifier ⟨"x", 2⟩))) .nil) (.mk 2 8 (.Literal 9))) := rfl

/-- C6: `rename_modules` (the source's report-and-abort embedded as a
structured result) hands the caller the full accumulated diagnostic list, in
accumulation order, and no renamed tree when any diagnostics were recorded;
otherwise the complete renamed module sequence.  The third conjunct states
that the accumulator only grows, module after module, so the final list
contains every diagnostic in insertion order. -/
theorem claim6_rename_modules_result (modules : List (Module InternedStr)) :
    ((rename_modules_go Renamer.new modules).2.errors.errors ≠ [] →
      rename_modules modules =
        Except.error (rename_modules_go Renamer.new modules).2.errors.errors) ∧
    ((rename_modules_go Renamer.new modules).2.errors.errors = [] →
      rename_modules modules = Except.ok (rename_modules_go Renamer.new modules).1) ∧
    (∀ (r : Renamer) (ms : List (Module InternedStr)),
      ∃ es, ((rename_modules_go r ms).2).errors.errors = r.errors.errors ++ es) := by
  refine ⟨?_, ?_, rename_modules_go_errs⟩
  · intro h
    have hb : (rename_modules_go Renamer.new modules).2.errors.has_errors = true :=
      (has_errors_iff _).mpr h
    simp [rename_modules, hb]
  · intro h
    have hb : (rename_modules_go Renamer.new modules).2.errors.has_errors = false := by
      simp [Errors.has_errors, h]
    simp [rename_modules, hb]

/-- C6 (witness): an empty batch renames to `ok []`; a batch with one module
whose top level is `main ; test ; main` fails with exactly the duplicate
diagnostic for `main` and yields no renamed tree. -/
theorem claim6_witness :
    rename_modules [] = Except.ok [] ∧
    rename_modules [demo6Mod] = Except.error ["main is defined multiple times"] := by
  constructor
  · exact (claim6_rename_modules_result []).2.1 rfl
  · have h := (claim6_rename_modules_result [demo6Mod]).1 (by decide)
    rw [h]
    rfl

/-- C7: two consecutive same-named clauses form one binding group: both
output clauses carry the same `Name`, and processing a clause returns the
scope table exactly as it found it (its argument scope is opened and closed
around it), so the two clauses' argument-pattern scopes are independent and
not shared. -/
theorem claim7_multiclause_sharing (r : Renamer) (b1 b2 : Binding InternedStr)
    (h : b1.name = b2.name) :
    (∃ nm, ((r.rename_bindings (.cons b1 (.cons b2 .nil)) false).1).names = [nm, nm]) ∧
    (∀ (r₀ : Renamer) (b : Binding InternedStr),
      ((r₀.rename_clause b).2).uniques = r₀.uniques) := by
  refine ⟨?_, fun r₀ b => rename_clause_uniques r₀ b⟩
  simp only [Renamer.rename_bindings]
  have hreg : register_binding_groups r
      (binding_groups (BindingList.toList (.cons b1 (.cons b2 .nil)))) false =
      (r.make_unique b2.name).2 := by
    simp [BindingList.toList, binding_groups, h, register_binding_groups, register_one]
  rw [hreg]
  have hs := make_unique_in_cur r b2.name
  cases hf : lookupFrame b2.name (((r.make_unique b2.name).2).uniques.cur) with
  | none => rw [hf] at hs; cases hs
  | some nm =>
    have hfind : ((r.make_unique b2.name).2).uniques.find b2.name = some nm :=
      find_of_cur hf
    refine ⟨nm, ?_⟩
    have h1 : ((((r.make_unique b2.name).2).rename_clause b1).1).name = nm := by
      rw [rename_clause_name, h, hfind]
      rfl
    have h2 : (((((r.make_unique b2.name).2).rename_clause b1).2).rename_clause b2).1.name =
        nm := by
      rw [rename_clause_name, rename_clause_uniques, hfind]
      rfl
    simp only [Renamer.renameClauseList, BindingList.names]
    rw [h1, h2]

/-- C7 (witness): the two clauses of `f` rename to one shared `Name`, and the
clause scope-restoration property at a concrete state. -/
theorem claim7_witness :
    (∃ nm, ((Renamer.new.rename_bindings (.cons demo7b1 (.cons demo7b2 .nil))
      false).1).names = [nm, nm]) ∧
    (∀ (r₀ : Renamer) (b : Binding InternedStr),
      ((r₀.rename_clause b).2).uniques = r₀.uniques) :=
  claim7_multiclause_sharing Renamer.new demo7b1 demo7b2 (by decide)

/-- C8: the first uid minted by a fresh `Renamer` equals 2 (the counter
starts at 1 and is pre-incremented past before first use), and the counter is
left at 2. -/
theorem claim8_first_mint_uid_two (n : InternedStr) :
    (Renamer.new.make_unique n).1.uid = 2 ∧
    (Renamer.new.make_unique n).2.unique_id = 2 := by
  rw [make_unique_fresh (show Renamer.new.uniques.in_current_scope n = false from rfl)]
  exact ⟨rfl, rfl⟩

/-- C9: after the registration phase has processed every binding group, the
per-clause lookup of every clause's name succeeds — for any renamer state,
any binding list and either globality — and the clause loop preserves the
scope table exactly between clauses, so each per-clause lookup in
`rename_bindings` runs against the registration-output table: the fatal
`expect` branch on a failed lookup is unreachable. -/
theorem claim9_clause_lookup_total (r : Renamer) (bs : BindingList InternedStr)
    (ig : Bool) :
    (∀ b ∈ bs.toList,
      ((register_binding_groups r (binding_groups bs.toList) ig).uniques.find
        b.name).isSome = true) ∧
    (∀ (r₀ : Renamer) (b : Binding InternedStr),
      ((r₀.rename_clause b).2).uniques = r₀.uniques) :=
  ⟨register_bs_isSome r bs ig, fun r₀ b => rename_clause_uniques r₀ b⟩

/-- C9 (witness): the lookup-success and scope-restoration facts at a
concrete one-clause binding list. -/
theorem claim9_witness :
    ((register_binding_groups Renamer.new (binding_groups demo9Bs.toList)
      false).uniques.find "x").isSome = true ∧
    ((Renamer.new.rename_clause (.mk "x" .nil (.mk 0 0 (.Literal 0)) 0 0)).2).uniques =
      Renamer.new.uniques := by
  constructor
  · exact (claim9_clause_lookup_total Renamer.new demo9Bs false).1
      (.mk "x" .nil (.mk 0 0 (.Literal 0)) 0 0) (List.mem_cons_self _ _)
  · exact (claim9_clause_lookup_total Renamer.new demo9Bs false).2 Renamer.new _

/-- C10: renaming preserves, node for node, the type annotation and the
source location of every expression node: the preorder listing of the
(annotation, location) metadata of the output tree equals that of the input
tree, so renaming never modifies or drops this metadata anywhere. -/
theorem claim10_metadata_preserved (r : Renamer) (e : TypedExpr InternedStr) :
    ((r.rename e).1).metas = e.metas :=
  (rename_shape r e).1

end HsRenamer
